import Mathlib

/-!
Verification of the COA (Chart of Accounts) hierarchy management engine.

The repository is a Streamlit application.  Its core engine lives in the
`COADataManager` class (`utils/coa_data_manager.py`), which is not part of
the provided source tree; only its callers are (`app.py`,
`pages/coa_editor.py`, `pages/coa_import_export.py`, `pages/analytics.py`).
Definitions for the engine itself are therefore modelled from the
specification (each such definition carries a `Modelled from the spec:` doc
comment), while the import handler and the add-child dialog are translated
directly from the source files.

Record fields follow the specification's names; the source's column names
map as: CODE_FIN_STAT = code, NAME_FIN_STAT = name, CODE_PARENT_FIN_STAT =
parent_code, TYPE_ACCOUNT = account_type, TYPE_FIN_STATEMENT =
statement_type, NAME_FIN_STAT_ENG = name_english, NUM_FIN_STAT_ORDER =
order, FK_BUSINESS_UNIT = business_unit.
-/

/-- One Account Record, one row of the Record Store (spec section 3). -/
structure Record where
  code : String
  name : String
  parent_code : Option String
  account_type : String
  statement_type : String
  name_english : Option String
  order : Option Int
  business_unit : String
deriving DecidableEq, Repr, Inhabited

/-- A single business-rule violation reported by the Validator.  Each of the
four rules of spec section 4.2 produces a distinct constructor. -/
inductive Violation where
  | typePairing (code : String)
  | duplicateCode (code : String) (business_unit : String)
  | orphanParent (code : String) (parent : String)
  | missingRequired (code : String)
deriving DecidableEq, Repr

/-- Audit action kinds (spec section 3, Audit Entry). -/
inductive AuditAction where
  | ADD
  | UPDATE
  | DELETE
deriving DecidableEq, Repr

/-- One immutable Audit Entry (spec section 3).  Timestamps are modelled by a
monotone session clock. -/
structure AuditEntry where
  timestamp : Nat
  action : AuditAction
  code : String
  user : String
  old_values : Option Record
  new_values : Option Record
deriving DecidableEq, Repr

/-- Error taxonomy of the Mutation Engine (spec section 7). -/
inductive CoaError where
  | validationError (violations : List Violation)
  | notFoundError
  | hasChildrenError
deriving DecidableEq, Repr

/-- The session state owned by the data manager: the Record Store, the
append-only Audit Log, and the timestamp clock. -/
structure ManagerState where
  data : List Record
  audit_log : List AuditEntry
  clock : Nat
deriving DecidableEq, Repr, Inhabited

/-- Rule 1 of the Validator: account_type A or P forces statement_type BS,
account_type R or C forces statement_type PL. -/
def pairingOk (r : Record) : Bool :=
  (!(r.account_type == "A" || r.account_type == "P") || r.statement_type == "BS") &&
  (!(r.account_type == "R" || r.account_type == "C") || r.statement_type == "PL")

/-- Rule 4 of the Validator: required fields are non-empty. -/
def requiredOk (r : Record) : Bool :=
  !(r.code == "") && !(r.name == "") && !(r.account_type == "") && !(r.statement_type == "")

/-- Modelled from the spec: violations of rule 1 (type/statement pairing),
one per offending record (spec section 4.2, rule 1). -/
def pairingViolations (rs : List Record) : List Violation :=
  rs.filterMap (fun r => if pairingOk r then none else some (.typePairing r.code))

/-- Modelled from the spec: violations of rule 2, one per (business_unit,
code) pair that occurs more than once (spec section 4.2, rule 2). -/
def dupViolations (rs : List Record) : List Violation :=
  ((rs.map (fun r => (r.business_unit, r.code))).dedup).filterMap
    (fun p => if 1 < (rs.filter (fun r => r.business_unit == p.1 && r.code == p.2)).length
              then some (.duplicateCode p.2 p.1) else none)

/-- Modelled from the spec: violations of rule 3, one per record whose
non-null, non-empty parent_code does not resolve to a code in the same
business unit (spec section 4.2, rule 3). -/
def orphanViolations (rs : List Record) : List Violation :=
  rs.filterMap (fun r =>
    match r.parent_code with
    | none => none
    | some p =>
      if p == "" then none
      else if rs.any (fun q => q.code == p && q.business_unit == r.business_unit) then none
      else some (.orphanParent r.code p))

/-- Modelled from the spec: violations of rule 4, one per record with an
empty required field (spec section 4.2, rule 4). -/
def missingViolations (rs : List Record) : List Violation :=
  rs.filterMap (fun r => if requiredOk r then none else some (.missingRequired r.code))

/-- Modelled from the spec: the Validator of `COADataManager.validate_coa_rules`
(absent from src/).  Pure, returns all violations of all four rules, not
just the first (spec section 4.2). -/
def validate_coa_rules (rs : List Record) : List Violation :=
  pairingViolations rs ++ dupViolations rs ++ orphanViolations rs ++ missingViolations rs

/-- Modelled from the spec: `COADataManager.add_coa_item` (absent from src/).
Validates the full resulting record set; on any violation fails with a
ValidationError carrying the whole violation list and changes nothing; on
success inserts the record and appends one ADD audit entry with null
old_values and the record's fields as new_values (spec section 4.5). -/
def add_coa_item (s : ManagerState) (item : Record) (user : String) :
    Except CoaError ManagerState :=
  let newData := s.data ++ [item]
  let vs := validate_coa_rules newData
  if vs = [] then
    .ok { data := newData,
          audit_log := s.audit_log ++
            [⟨s.clock, .ADD, item.code, user, none, some item⟩],
          clock := s.clock + 1 }
  else .error (.validationError vs)

/-- A per-field update for the update operation; `none` leaves the field
unchanged.  The business unit is read-only in the editor and is never part
of an update. -/
structure Updates where
  code : Option String := none
  name : Option String := none
  parent_code : Option (Option String) := none
  account_type : Option String := none
  statement_type : Option String := none
  name_english : Option (Option String) := none
  order : Option (Option Int) := none
deriving Repr

/-- Merge a field update into a record (spec section 4.5, Update). -/
def applyUpdates (r : Record) (u : Updates) : Record :=
  { code := u.code.getD r.code
    name := u.name.getD r.name
    parent_code := u.parent_code.getD r.parent_code
    account_type := u.account_type.getD r.account_type
    statement_type := u.statement_type.getD r.statement_type
    name_english := u.name_english.getD r.name_english
    order := u.order.getD r.order
    business_unit := r.business_unit }

/-- Modelled from the spec: `COADataManager.update_coa_item` (absent from
src/).  Fails with NotFoundError if the code is absent; merges the updates,
re-validates the full set, and on success replaces the record and appends
one UPDATE audit entry with both old and new values (spec section 4.5). -/
def update_coa_item (s : ManagerState) (code : String) (u : Updates) (user : String) :
    Except CoaError ManagerState :=
  match s.data.find? (fun r => r.code == code) with
  | none => .error .notFoundError
  | some old =>
    let merged := applyUpdates old u
    let newData := s.data.map (fun r => if r.code == code then merged else r)
    let vs := validate_coa_rules newData
    if vs = [] then
      .ok { data := newData,
            audit_log := s.audit_log ++
              [⟨s.clock, .UPDATE, code, user, some old, some merged⟩],
            clock := s.clock + 1 }
    else .error (.validationError vs)

/-- Modelled from the spec: `COADataManager.delete_coa_item` (absent from
src/).  Fails with NotFoundError if the code is absent, then with
HasChildrenError if any record references the code as its parent; on
success removes the record and appends one DELETE audit entry with the
pre-delete record as old_values and null new_values (spec section 4.5). -/
def delete_coa_item (s : ManagerState) (code : String) (user : String) :
    Except CoaError ManagerState :=
  match s.data.find? (fun r => r.code == code) with
  | none => .error .notFoundError
  | some old =>
    if s.data.any (fun r => r.parent_code == some code) then .error .hasChildrenError
    else
      .ok { data := s.data.filter (fun r => !(r.code == code)),
            audit_log := s.audit_log ++
              [⟨s.clock, .DELETE, code, user, some old, none⟩],
            clock := s.clock + 1 }

/-- One Mutation Engine operation (spec section 4.5). -/
inductive Op where
  | addItem (r : Record) (user : String)
  | updateItem (code : String) (upd : Updates) (user : String)
  | deleteItem (code : String) (user : String)

/-- Dispatch one operation to the Mutation Engine. -/
def applyOp (s : ManagerState) : Op → Except CoaError ManagerState
  | .addItem r u => add_coa_item s r u
  | .updateItem c upd u => update_coa_item s c upd u
  | .deleteItem c u => delete_coa_item s c u

/-- Run a sequence of mutations; `some` only when every single one
succeeds. -/
def applyOps (s : ManagerState) : List Op → Option ManagerState
  | [] => some s
  | op :: ops =>
    match applyOp s op with
    | .ok s' => applyOps s' ops
    | .error _ => none

/-- Modelled from the spec: `COADataManager.get_next_order_for_parent`
(absent from src/).  Returns 1000 when the parent has no ordered children
within the business unit, otherwise the smallest multiple of 100 strictly
greater than the maximum existing child order (spec section 4.4). -/
def get_next_order_for_parent (rs : List Record) (parent_code business_unit : String) : Int :=
  match (rs.filter
      (fun r => r.parent_code == some parent_code && r.business_unit == business_unit)).filterMap
      (fun r => r.order) with
  | [] => 1000
  | o :: os => ((os.foldl max o) / 100 + 1) * 100

/-- Translated from `pages/coa_import_export.py`, `show_import_interface`,
"Update Existing" branch, one imported row: the match is
`data['CODE_FIN_STAT'] == code` over the whole store (no business-unit
filter); every matching row is overwritten in place, otherwise the row is
appended. -/
def importUpdateRow (store : List Record) (row : Record) : List Record :=
  if store.any (fun r => r.code == row.code) then
    store.map (fun r => if r.code == row.code then row else r)
  else store ++ [row]

/-- Translated from `pages/coa_import_export.py`, `show_import_interface`,
"Update Existing" branch: each imported row is folded into the store in
order. -/
def importUpdateExisting (store : List Record) (rows : List Record) : List Record :=
  rows.foldl importUpdateRow store

/-- The "Update Existing" import acting on the whole session state: it
writes `data_manager.data` directly and never touches the audit log. -/
def importUpdateExistingState (s : ManagerState) (rows : List Record) : ManagerState :=
  { s with data := importUpdateExisting s.data rows }

/-- Translated from `pages/coa_editor.py`, `show_add_child_popup`: the
record submitted by the add-child dialog.  The statement type is read from
the first store record whose code equals the parent code (pandas `iloc[0]`)
and the user cannot enter one (the field is disabled); when the parent is
missing the inherited statement type is `None`, which fails the Python
truthiness check on submit, so nothing is built.  Returns the item handed
to `add_coa_item`, or `none` when the dialog refuses to submit. -/
def buildChildSubmission (data : List Record)
    (parent_code code name type_account name_eng : String) (order : Int) :
    Option Record :=
  match data.find? (fun r => r.code == parent_code) with
  | none => none
  | some parent =>
    if !(code == "") && !(name == "") && !(type_account == "") &&
       !(parent.statement_type == "") then
      some { code := code, name := name, parent_code := some parent_code,
             account_type := type_account,
             statement_type := parent.statement_type,
             name_english := if name_eng == "" then none else some name_eng,
             order := some order,
             business_unit := parent.business_unit }
    else none

/-- Child ordering of the Hierarchy Builder: `order` ascending with null
orders last, ties broken by `code` ascending (spec section 4.3, step 4). -/
def childLE (a b : Record) : Bool :=
  match a.order, b.order with
  | some x, some y => decide (x < y) || (decide (x = y) && decide (a.code ≤ b.code))
  | some _, none => true
  | none, some _ => false
  | none, none => decide (a.code ≤ b.code)

/-- The sibling ordering as a relation. -/
def childLEP (a b : Record) : Prop := childLE a b = true

instance childLEP.decidableRel : DecidableRel childLEP := fun a b =>
  instDecidableEqBool (childLE a b) true

instance childLEP.isTotal : IsTotal Record childLEP := by
  constructor
  intro a b
  unfold childLEP childLE
  cases a.order with
  | none =>
    cases b.order with
    | none =>
      rcases le_total a.code b.code with h | h
      · left; simp [h]
      · right; simp [h]
    | some y => right; rfl
  | some x =>
    cases b.order with
    | none => left; rfl
    | some y =>
      rcases lt_trichotomy x y with h | h | h
      · left; simp [h]
      · rcases le_total a.code b.code with hc | hc
        · left; simp [h, hc]
        · right; simp [h.symm, hc]
      · right; simp [h]

instance childLEP.isTrans : IsTrans Record childLEP := by
  constructor
  intro a b c hab hbc
  unfold childLEP childLE at *
  cases ha : a.order with
  | none =>
    cases hb : b.order with
    | none =>
      cases hc : c.order with
      | none =>
        rw [ha, hb] at hab; rw [hb, hc] at hbc
        simp only [decide_eq_true_eq] at hab hbc
        simp [le_trans hab hbc]
      | some z => rw [hb, hc] at hbc; simp at hbc
    | some y => rw [ha, hb] at hab; simp at hab
  | some x =>
    cases hc : c.order with
    | none => rfl
    | some z =>
      cases hb : b.order with
      | none => rw [hb, hc] at hbc; simp at hbc
      | some y =>
        rw [ha, hb] at hab; rw [hb, hc] at hbc
        simp only [Bool.or_eq_true, Bool.and_eq_true, decide_eq_true_eq] at hab hbc ⊢
        rcases hab with hab | ⟨hab, hab'⟩ <;> rcases hbc with hbc | ⟨hbc, hbc'⟩
        · exact Or.inl (lt_trans hab hbc)
        · exact Or.inl (hbc ▸ hab)
        · exact Or.inl (hab ▸ hbc)
        · exact Or.inr ⟨hab.trans hbc, le_trans hab' hbc'⟩

/-- Sort a sibling list with the Hierarchy Builder's child ordering. -/
def sortChildren (l : List Record) : List Record := l.insertionSort childLEP

/-- All records declaring `code` as their parent (spec section 4.3, step 3). -/
def childrenOf (rs : List Record) (code : String) : List Record :=
  rs.filter (fun r => r.parent_code == some code)

/-- A derived, ephemeral Hierarchy Node: one record, its hierarchy level,
and its ordered children (spec section 3). -/
inductive HNode where
  | node (data : Record) (level : Nat) (children : List HNode)
deriving Repr

/-- The record wrapped by a hierarchy node. -/
def HNode.getData : HNode → Record
  | .node d _ _ => d

/-- The hierarchy level assigned to a node. -/
def HNode.getLevel : HNode → Nat
  | .node _ l _ => l

/-- The ordered children of a node. -/
def HNode.getChildren : HNode → List HNode
  | .node _ _ c => c

/-- A parent reference that makes the record a root: null or empty
(spec section 3 and the pandas root filter in the source). -/
def isRootParent : Option String → Bool
  | none => true
  | some p => p == ""

/-- Modelled from the spec: the recursive attachment step of
`COADataManager.get_hierarchical_structure` (absent from src/).  `visited`
is the ancestor-code chain of `r` (nearest first, excluding `r` itself); a
child whose code already appears in its own ancestor chain is not attached
(spec section 4.3, cycle guard).  The fuel argument only bounds recursion
depth; the chain guard keeps it from ever being exhausted when the builder
supplies `distinct codes + 1`. -/
def attachNode (rs : List Record) : Nat → List String → Nat → Record → HNode
  | 0, _, lvl, r => .node r lvl []
  | fuel + 1, visited, lvl, r =>
    let kids := sortChildren ((childrenOf rs r.code).filter
      (fun c => !((r.code :: visited).contains c.code)))
    .node r lvl (kids.map (fun c => attachNode rs fuel (r.code :: visited) (lvl + 1) c))

/-- The records of `rs` in the requested business unit and statement type
(spec section 4.3, step 1). -/
def filteredRecords (rs : List Record) (business_unit statement_type : String) : List Record :=
  rs.filter (fun r => r.business_unit == business_unit && r.statement_type == statement_type)

/-- Modelled from the spec: `COADataManager.get_hierarchical_structure`
(absent from src/).  Filters to the requested business unit and statement
type, takes the records with a null or empty parent as roots, and
recursively attaches children sorted by order (nulls last, ties by code),
assigning hierarchy levels as recursion depth and guarding against cycles
via the visited-code chain (spec section 4.3). -/
def get_hierarchical_structure (rs : List Record) (business_unit statement_type : String) :
    List (String × HNode) :=
  let f := filteredRecords rs business_unit statement_type
  let roots := f.filter (fun r => isRootParent r.parent_code)
  roots.map (fun r => (r.code, attachNode f ((f.map (fun q => q.code)).dedup.length + 1) [] 0 r))

mutual

/-- Pre-order traversal of one hierarchy node, collecting codes. -/
def preorderCodes : HNode → List String
  | .node d _ kids => d.code :: preorderCodesList kids

/-- Pre-order traversal of a list of hierarchy nodes, collecting codes. -/
def preorderCodesList : List HNode → List String
  | [] => []
  | k :: ks => preorderCodes k ++ preorderCodesList ks

end

/-- All codes reached by pre-order traversal of the Hierarchy Builder's
whole output forest. -/
def forestCodes (rs : List Record) (business_unit statement_type : String) : List String :=
  (get_hierarchical_structure rs business_unit statement_type).flatMap
    (fun p => preorderCodes p.2)

/-- The code set claimed by the tree round-trip property: the filtered
records minus the direct orphans, a record being an orphan exactly when its
non-null, non-empty parent code does not resolve within the filtered set.
This follows the claim's words, for comparison with `forestCodes`. -/
def claimRoundTripCodes (rs : List Record) (business_unit statement_type : String) :
    List String :=
  let f := filteredRecords rs business_unit statement_type
  (f.filter (fun r =>
    match r.parent_code with
    | none => true
    | some p => p == "" || f.any (fun q => q.code == p))).map (fun r => r.code)

/-- A code is reachable when some record carries it as a root, or as a
child of a record whose parent code is itself reachable: the codes an
ancestor chain of resolving parent links connects to a root. -/
inductive ReachableCode (rs : List Record) : String → Prop where
  | root (r : Record) (hr : r ∈ rs) (hroot : isRootParent r.parent_code = true) :
      ReachableCode rs r.code
  | step (p : String) (hp : ReachableCode rs p) (r : Record) (hr : r ∈ rs)
      (hpar : r.parent_code = some p) : ReachableCode rs r.code

/-- Well-formedness of a hierarchy node at depth `d`: the assigned level is
the recursion depth, the children are pairwise ordered by the sibling
ordering (order ascending, nulls last, ties by code), and every child is
well-formed at depth `d + 1`. -/
inductive WFNode : Nat → HNode → Prop where
  | mk (d : Nat) (r : Record) (lvl : Nat) (kids : List HNode)
      (hlvl : lvl = d)
      (hsorted : (kids.map HNode.getData).Pairwise childLEP)
      (hkids : ∀ k ∈ kids, WFNode (d + 1) k) :
      WFNode d (.node r lvl kids)

/-- No node's code repeats in its own ancestor chain: the node's code is
not in `chain`, and its children satisfy the same with the node's code
prepended. -/
inductive NoAncestorRepeat : List String → HNode → Prop where
  | mk (chain : List String) (r : Record) (lvl : Nat) (kids : List HNode)
      (hhead : r.code ∉ chain)
      (hkids : ∀ k ∈ kids, NoAncestorRepeat (r.code :: chain) k) :
      NoAncestorRepeat chain (.node r lvl kids)

/-- How many distinct codes of `rs` are not yet on the visited chain; the
recursion-depth measure of the attachment step. -/
def remainingCodes (rs : List Record) (visited : List String) : Nat :=
  (((rs.map (fun q => q.code)).dedup).filter (fun x => !(visited.contains x))).length

/-- Example record: a root Assets account (spec section 8, concrete
scenario). -/
def exA : Record :=
  ⟨"BSA99999", "Assets", none, "A", "BS", some "Assets", some 1000, "DEFAULT"⟩

/-- Example record: a child of `exA` with order 1000. -/
def exB : Record :=
  ⟨"BSA10000", "Cash", some "BSA99999", "A", "BS", none, some 1000, "DEFAULT"⟩

/-- Example record: account_type A paired with statement_type PL, violating
validation rule 1. -/
def exBadPL : Record :=
  ⟨"PLX10000", "Mismatched", none, "A", "PL", none, some 1000, "DEFAULT"⟩

/-- Example record: its parent code resolves to no record at all. -/
def exOrphan : Record :=
  ⟨"ORP10000", "Orphan", some "MISSING99", "A", "BS", none, some 1000, "DEFAULT"⟩

/-- Example record: a child of the orphan `exOrphan`; its own parent code
resolves, yet no chain connects it to a root. -/
def exOrphanChild : Record :=
  ⟨"ORP20000", "Orphan child", some "ORP10000", "A", "BS", none, some 1000, "DEFAULT"⟩

/-- Example record: one half of a two-record parent cycle. -/
def exCycB : Record :=
  ⟨"CYC10000", "Cycle B", some "CYC20000", "A", "BS", none, some 1000, "DEFAULT"⟩

/-- Example record: the other half of a two-record parent cycle. -/
def exCycC : Record :=
  ⟨"CYC20000", "Cycle C", some "CYC10000", "A", "BS", none, some 2000, "DEFAULT"⟩

/-- Example record: code X in business unit B1. -/
def exX1 : Record := ⟨"X", "One", none, "A", "BS", none, some 1000, "B1"⟩

/-- Example record: code X in business unit B2. -/
def exX2 : Record := ⟨"X", "Two", none, "A", "BS", none, some 1000, "B2"⟩

/-- Example record: an imported row that also carries code X, in yet
another business unit. -/
def exXnew : Record := ⟨"X", "New", none, "A", "BS", none, some 2000, "B3"⟩

/-- Example audit entry, for states whose audit log is nonempty. -/
def exEntry : AuditEntry := ⟨0, .ADD, "X", "importer", none, some exX1⟩

/-! Helper lemmas. -/

/-- The seed of a maximum fold never exceeds the result. -/
theorem self_le_foldl_max : ∀ (l : List Int) (a : Int), a ≤ l.foldl max a := by
  intro l
  induction l with
  | nil => intro a; exact le_refl a
  | cons b t ih => intro a; exact le_trans (le_max_left a b) (ih (max a b))

/-- Every list element is bounded by a maximum fold over the list. -/
theorem mem_le_foldl_max : ∀ (l : List Int) (a x : Int), x ∈ l → x ≤ l.foldl max a := by
  intro l
  induction l with
  | nil => intro a x hx; cases hx
  | cons b t ih =>
    intro a x hx
    rcases List.mem_cons.1 hx with h | h
    · subst h; exact le_trans (le_max_right a x) (self_le_foldl_max t (max a x))
    · exact ih (max a b) x h

/-- A maximum fold returns its seed or one of the list elements. -/
theorem foldl_max_mem : ∀ (l : List Int) (a : Int), l.foldl max a = a ∨ l.foldl max a ∈ l := by
  intro l
  induction l with
  | nil => intro a; exact Or.inl rfl
  | cons b t ih =>
    intro a
    rcases ih (max a b) with h | h
    · rcases max_choice a b with h2 | h2
      · exact Or.inl (by rw [List.foldl_cons, h, h2])
      · exact Or.inr (by rw [List.foldl_cons, h, h2]; exact List.mem_cons_self b t)
    · exact Or.inr (List.mem_cons_of_mem b h)

/-- The head of a nonempty list, with a default, is a member. -/
theorem headD_mem {α : Type} (l : List α) (d : α) (h : l.isEmpty = false) :
    l.headD d ∈ l := by
  cases l with
  | nil => simp at h
  | cons a t => exact List.mem_cons_self a t

/-! C1: atomic Add with the full violation list. -/

/-- C1: for every state, record and user, Add either succeeds — appending
the record to the store and exactly one ADD audit entry with null
old_values and the record as new_values — or fails with a ValidationError
carrying the complete violation list of the resulting set, changing
nothing. -/
theorem add_atomic_validation (s : ManagerState) (r : Record) (u : String) :
    (validate_coa_rules (s.data ++ [r]) = [] ∧
      add_coa_item s r u = .ok
        { data := s.data ++ [r],
          audit_log := s.audit_log ++ [⟨s.clock, .ADD, r.code, u, none, some r⟩],
          clock := s.clock + 1 }) ∨
    (validate_coa_rules (s.data ++ [r]) ≠ [] ∧
      add_coa_item s r u =
        .error (.validationError (validate_coa_rules (s.data ++ [r])))) := by
  by_cases h : validate_coa_rules (s.data ++ [r]) = []
  · exact Or.inl ⟨h, by simp [add_coa_item, h]⟩
  · exact Or.inr ⟨h, by simp [add_coa_item, h]⟩

/-! C2: the delete guard. -/

/-- C2 counterexample: a store holds one record whose parent code
references the absent code ORP10000; deleting ORP10000 fails with
NotFoundError, not HasChildrenError, because the absence check runs
first. -/
theorem delete_dangling_not_has_children :
    (∃ r ∈ ([exOrphanChild] : List Record), r.parent_code = some "ORP10000") ∧
    delete_coa_item ⟨[exOrphanChild], [], 0⟩ "ORP10000" "current_user" =
      .error .notFoundError ∧
    ¬ (delete_coa_item ⟨[exOrphanChild], [], 0⟩ "ORP10000" "current_user" =
        .error .hasChildrenError) := by
  refine ⟨⟨exOrphanChild, by simp, rfl⟩, rfl, ?_⟩
  intro h
  rw [show delete_coa_item ⟨[exOrphanChild], [], 0⟩ "ORP10000" "current_user" =
      .error .notFoundError from rfl] at h
  simp at h

/-- C2 amended: for every state and code `c` that is present in the store,
if at least one record carries `c` as its parent code then Delete fails
with HasChildrenError (and, the operation failing, store and audit log are
untouched). -/
theorem delete_blocked_by_children (s : ManagerState) (c u : String)
    (hpresent : ∃ r ∈ s.data, r.code = c)
    (hchild : ∃ r ∈ s.data, r.parent_code = some c) :
    delete_coa_item s c u = .error .hasChildrenError := by
  obtain ⟨r0, hr0, hc0⟩ := hpresent
  have hfind : (s.data.find? (fun r => r.code == c)).isSome := by
    rw [List.find?_isSome]
    exact ⟨r0, hr0, by simp [hc0]⟩
  obtain ⟨r1, hr1⟩ := Option.isSome_iff_exists.1 hfind
  have hany : s.data.any (fun r => r.parent_code == some c) = true := by
    obtain ⟨r2, hr2, hp2⟩ := hchild
    exact List.any_eq_true.2 ⟨r2, hr2, by simp [hp2]⟩
  unfold delete_coa_item
  rw [hr1]
  simp [hany]

/-- C2 witness: in the two-record store where BSA10000 declares BSA99999 as
its parent, deleting BSA99999 fails with HasChildrenError. -/
theorem delete_blocked_by_children_witness :
    delete_coa_item ⟨[exA, exB], [], 0⟩ "BSA99999" "current_user" =
      .error .hasChildrenError :=
  delete_blocked_by_children ⟨[exA, exB], [], 0⟩ "BSA99999" "current_user"
    ⟨exA, by simp, rfl⟩ ⟨exB, by simp, rfl⟩

/-! C3: the order allocator. -/

/-- C3: `next_order` returns 1000 when the parent has no children in the
business unit; otherwise, writing `m` for the maximum order among the
current children, it returns a multiple of 100 strictly greater than `m`
and at most `m + 100` — in particular 1100 when `m = 1000` — and, being a
pure function of the store, two calls without an intervening mutation
return the same value. -/
theorem next_order_spec (rs : List Record) (p bu : String) :
    (rs.filter (fun r => r.parent_code == some p && r.business_unit == bu) = [] →
      get_next_order_for_parent rs p bu = 1000) ∧
    (∀ m : Int,
      m ∈ (rs.filter (fun r => r.parent_code == some p && r.business_unit == bu)).filterMap
            (fun r => r.order) →
      (∀ o ∈ (rs.filter (fun r => r.parent_code == some p && r.business_unit == bu)).filterMap
            (fun r => r.order), o ≤ m) →
      m < get_next_order_for_parent rs p bu ∧
      get_next_order_for_parent rs p bu ≤ m + 100 ∧
      (100 : Int) ∣ get_next_order_for_parent rs p bu ∧
      (m = 1000 → get_next_order_for_parent rs p bu = 1100)) ∧
    get_next_order_for_parent rs p bu = get_next_order_for_parent rs p bu := by
  refine ⟨?_, ?_, rfl⟩
  · intro h
    unfold get_next_order_for_parent
    rw [h]
    rfl
  · intro m hm hmax
    unfold get_next_order_for_parent at *
    rcases hL : (rs.filter
        (fun r => r.parent_code == some p && r.business_unit == bu)).filterMap
        (fun r => r.order) with _ | ⟨o, os⟩
    · rw [hL] at hm; cases hm
    · rw [hL] at hm hmax ⊢
      have hred : (match o :: os with
          | ([] : List Int) => (1000 : Int)
          | o :: os => ((os.foldl max o) / 100 + 1) * 100) =
          ((os.foldl max o) / 100 + 1) * 100 := rfl
      rw [hred]
      have hMm : os.foldl max o ≤ m := by
        rcases foldl_max_mem os o with h | h
        · rw [h]; exact hmax o (List.mem_cons_self o os)
        · exact hmax _ (List.mem_cons_of_mem o h)
      have hmM : m ≤ os.foldl max o := by
        rcases List.mem_cons.1 hm with h | h
        · rw [h]; exact self_le_foldl_max os o
        · exact mem_le_foldl_max os o m h
      have hEq : os.foldl max o = m := le_antisymm hMm hmM
      rw [hEq]
      have h100 : (100 : Int) ≠ 0 := by norm_num
      have hdm := Int.ediv_add_emod m 100
      have h0 : 0 ≤ m % 100 := Int.emod_nonneg m h100
      have hlt : m % 100 < 100 := Int.emod_lt_of_pos m (by norm_num)
      refine ⟨?_, ?_, dvd_mul_left 100 (m / 100 + 1), ?_⟩
      · omega
      · omega
      · intro hm1000; subst hm1000; decide

/-- C3 witness: in the store holding root BSA99999 and its single child
BSA10000 with order 1000, the allocator returns 1100, strictly above the
maximum child order 1000. -/
theorem next_order_witness :
    get_next_order_for_parent [exA, exB] "BSA99999" "DEFAULT" = 1100 ∧
    (1000 : Int) < get_next_order_for_parent [exA, exB] "BSA99999" "DEFAULT" := by
  have h := (next_order_spec [exA, exB] "BSA99999" "DEFAULT").2.1 1000
    (by decide) (by decide)
  exact ⟨h.2.2.2 rfl, h.1⟩

/-! C9: the "Update Existing" import mode. -/

/-- C9: each imported row is matched solely on code over the whole store —
if any record, in any business unit, shares the row's code, every record
with that code is overwritten in place, otherwise the row is appended —
and the whole import leaves the audit log untouched, since it bypasses the
Mutation Engine. -/
theorem import_update_existing_spec :
    (∀ (store : List Record) (row : Record),
      ((∃ r ∈ store, r.code = row.code) →
        importUpdateRow store row =
          store.map (fun r => if r.code == row.code then row else r)) ∧
      ((¬ ∃ r ∈ store, r.code = row.code) →
        importUpdateRow store row = store ++ [row])) ∧
    (∀ (s : ManagerState) (rows : List Record),
      (importUpdateExistingState s rows).audit_log = s.audit_log) := by
  constructor
  · intro store row
    constructor
    · rintro ⟨r, hr, hc⟩
      unfold importUpdateRow
      rw [if_pos (List.any_eq_true.2 ⟨r, hr, by simp [hc]⟩)]
    · intro h
      unfold importUpdateRow
      rw [if_neg]
      intro hany
      obtain ⟨r, hr, hc⟩ := List.any_eq_true.1 hany
      exact h ⟨r, hr, by simpa using hc⟩
  · intro s rows
    rfl

/-- C9 witness: importing a row with code X into a store holding code X in
two other business units overwrites both in place, and a run of the import
over a state with a nonempty audit log leaves the log unchanged. -/
theorem import_update_existing_witness :
    importUpdateRow [exX1, exX2] exXnew =
      [exX1, exX2].map (fun r => if r.code == exXnew.code then exXnew else r) ∧
    (importUpdateExistingState ⟨[exX1, exX2], [exEntry], 3⟩ [exXnew]).audit_log =
      [exEntry] :=
  ⟨(import_update_existing_spec.1 [exX1, exX2] exXnew).1 ⟨exX1, by simp, rfl⟩,
   import_update_existing_spec.2 ⟨[exX1, exX2], [exEntry], 3⟩ [exXnew]⟩

/-! C10: the add-child dialog inherits the statement type. -/

/-- C10: whenever the add-child dialog submits a record, the statement type
of that record equals the statement type of the first store record whose
code is the requested parent code — the field is inherited, and no
user-entered statement type enters the submission — and the record carries
the parent code and the parent's business unit. -/
theorem add_child_inherits_statement_type
    (data : List Record) (pc c n ta ne : String) (o : Int) (item : Record)
    (h : buildChildSubmission data pc c n ta ne o = some item) :
    ∃ parent, data.find? (fun r => r.code == pc) = some parent ∧
      item.statement_type = parent.statement_type ∧
      item.parent_code = some pc ∧
      item.business_unit = parent.business_unit := by
  unfold buildChildSubmission at h
  split at h
  next => cases h
  next parent hf =>
    split at h
    next => cases h; exact ⟨parent, hf, rfl, rfl, rfl⟩
    next => cases h

/-- C10 witness: adding a child under BSA99999 (statement type BS) in the
one-record store builds a submission whose statement type is the parent's
BS. -/
theorem add_child_inherits_statement_type_witness :
    ∃ parent, [exA].find? (fun r => r.code == "BSA99999") = some parent ∧
      ((buildChildSubmission [exA] "BSA99999" "BSA10000" "Cash" "A" "" 1000).getD
        exA).statement_type = parent.statement_type ∧
      ((buildChildSubmission [exA] "BSA99999" "BSA10000" "Cash" "A" "" 1000).getD
        exA).parent_code = some "BSA99999" ∧
      ((buildChildSubmission [exA] "BSA99999" "BSA10000" "Cash" "A" "" 1000).getD
        exA).business_unit = parent.business_unit :=
  add_child_inherits_statement_type [exA] "BSA99999" "BSA10000" "Cash" "A" "" 1000
    ((buildChildSubmission [exA] "BSA99999" "BSA10000" "Cash" "A" "" 1000).getD exA)
    (by rfl)

/-! C5: the type/statement pairing invariant. -/

/-- C5: every record set the Validator accepts pairs account types A and P
with statement type BS and types R and C with PL; and adding any record
with account type A and statement type PL fails with a ValidationError
whose violation list contains the pairing violation. -/
theorem type_statement_pairing_spec :
    (∀ rs : List Record, validate_coa_rules rs = [] → ∀ r ∈ rs,
      ((r.account_type = "A" ∨ r.account_type = "P") → r.statement_type = "BS") ∧
      ((r.account_type = "R" ∨ r.account_type = "C") → r.statement_type = "PL")) ∧
    (∀ (s : ManagerState) (r : Record) (u : String),
      r.account_type = "A" → r.statement_type = "PL" →
      add_coa_item s r u =
        .error (.validationError (validate_coa_rules (s.data ++ [r]))) ∧
      Violation.typePairing r.code ∈ validate_coa_rules (s.data ++ [r])) := by
  constructor
  · intro rs hv r hr
    unfold validate_coa_rules at hv
    have hp : pairingViolations rs = [] :=
      (List.append_eq_nil.1 (List.append_eq_nil.1 (List.append_eq_nil.1 hv).1).1).1
    have hnone := List.filterMap_eq_nil_iff.1 hp r hr
    have hOk : pairingOk r = true := by
      by_cases hq : pairingOk r
      · exact hq
      · rw [if_neg hq] at hnone; cases hnone
    simp only [pairingOk, Bool.and_eq_true, Bool.or_eq_true, Bool.not_eq_true',
      Bool.or_eq_false_iff, beq_iff_eq, beq_eq_false_iff_ne, ne_eq] at hOk
    obtain ⟨h1, h2⟩ := hOk
    constructor
    · intro hA
      rcases h1 with ⟨hna, hnp⟩ | hbs
      · rcases hA with hA | hA
        · exact absurd hA hna
        · exact absurd hA hnp
      · exact hbs
    · intro hR
      rcases h2 with ⟨hnr, hnc⟩ | hpl
      · rcases hR with hR | hR
        · exact absurd hR hnr
        · exact absurd hR hnc
      · exact hpl
  · intro s r u hA hPL
    have hbad : pairingOk r = false := by simp [pairingOk, hA, hPL]
    have hmem : Violation.typePairing r.code ∈ pairingViolations (s.data ++ [r]) := by
      refine List.mem_filterMap.2 ⟨r, by simp, ?_⟩
      rw [hbad]
      simp
    have hmem2 : Violation.typePairing r.code ∈ validate_coa_rules (s.data ++ [r]) := by
      unfold validate_coa_rules
      exact List.mem_append.2 (Or.inl (List.mem_append.2 (Or.inl
        (List.mem_append.2 (Or.inl hmem)))))
    have hne : validate_coa_rules (s.data ++ [r]) ≠ [] := List.ne_nil_of_mem hmem2
    exact ⟨by simp [add_coa_item, hne], hmem2⟩

/-- C5 witness: the accepted one-record set pairs exA's type A with BS, and
adding the concrete A/PL record to the empty store fails with the pairing
violation in the reported list. -/
theorem type_statement_pairing_witness :
    (((exA.account_type = "A" ∨ exA.account_type = "P") →
        exA.statement_type = "BS") ∧
      ((exA.account_type = "R" ∨ exA.account_type = "C") →
        exA.statement_type = "PL")) ∧
    add_coa_item ⟨[], [], 0⟩ exBadPL "current_user" =
      .error (.validationError (validate_coa_rules ([] ++ [exBadPL]))) ∧
    Violation.typePairing exBadPL.code ∈ validate_coa_rules ([] ++ [exBadPL]) :=
  ⟨type_statement_pairing_spec.1 [exA] (by decide) exA (by simp),
   type_statement_pairing_spec.2 ⟨[], [], 0⟩ exBadPL "current_user" rfl rfl⟩

/-! C4: the audit log is append-only. -/

/-- Every successful Mutation Engine operation appends exactly one entry to
the audit log. -/
theorem applyOp_audit (s s' : ManagerState) (op : Op) (h : applyOp s op = .ok s') :
    ∃ e, s'.audit_log = s.audit_log ++ [e] := by
  cases op with
  | addItem r u =>
    simp only [applyOp, add_coa_item] at h
    split at h
    · cases h; exact ⟨_, rfl⟩
    · cases h
  | updateItem c upd u =>
    simp only [applyOp, update_coa_item] at h
    split at h
    · cases h
    · split at h
      · cases h; exact ⟨_, rfl⟩
      · cases h
  | deleteItem c u =>
    simp only [applyOp, delete_coa_item] at h
    split at h
    · cases h
    · split at h
      · cases h
      · cases h; exact ⟨_, rfl⟩

/-- C4: a sequence of N successful mutations grows the audit log by exactly
N entries, and the original entries survive unchanged as the unmodified
front of the log. -/
theorem audit_append_only (ops : List Op) :
    ∀ s s' : ManagerState, applyOps s ops = some s' →
      s'.audit_log.length = s.audit_log.length + ops.length ∧
      s'.audit_log.take s.audit_log.length = s.audit_log := by
  induction ops with
  | nil =>
    intro s s' h
    cases h
    simp
  | cons op t ih =>
    intro s s' h
    unfold applyOps at h
    cases hop : applyOp s op with
    | error e => rw [hop] at h; cases h
    | ok s1 =>
      rw [hop] at h
      obtain ⟨hl, hp⟩ := ih s1 s' h
      obtain ⟨e, he⟩ := applyOp_audit s s1 op hop
      have hle : s.audit_log.length ≤ s1.audit_log.length := by rw [he]; simp
      constructor
      · rw [hl, he]
        simp [List.length_append, List.length_cons]
        omega
      · have hcut : s'.audit_log.take s.audit_log.length =
            (s'.audit_log.take s1.audit_log.length).take s.audit_log.length := by
          rw [List.take_take, min_eq_left hle]
        rw [hcut, hp, he]
        exact List.take_left s.audit_log [e]

/-- C4 witness: from the empty state, two successful adds followed by two
successful deletes grow the audit log by exactly four entries, and the
(empty) original log is preserved as its front. -/
theorem audit_append_only_witness :
    ((applyOps ⟨[], [], 0⟩ [Op.addItem exA "u1", Op.addItem exB "u2",
        Op.deleteItem "BSA10000" "u3", Op.deleteItem "BSA99999" "u4"]).getD
        ⟨[], [], 0⟩).audit_log.length =
      (⟨[], [], 0⟩ : ManagerState).audit_log.length +
        ([Op.addItem exA "u1", Op.addItem exB "u2",
          Op.deleteItem "BSA10000" "u3", Op.deleteItem "BSA99999" "u4"]).length ∧
    ((applyOps ⟨[], [], 0⟩ [Op.addItem exA "u1", Op.addItem exB "u2",
        Op.deleteItem "BSA10000" "u3", Op.deleteItem "BSA99999" "u4"]).getD
        ⟨[], [], 0⟩).audit_log.take
        (⟨[], [], 0⟩ : ManagerState).audit_log.length =
      (⟨[], [], 0⟩ : ManagerState).audit_log :=
  audit_append_only
    [Op.addItem exA "u1", Op.addItem exB "u2",
     Op.deleteItem "BSA10000" "u3", Op.deleteItem "BSA99999" "u4"]
    ⟨[], [], 0⟩ _ (by rfl)

/-! Hierarchy Builder lemmas. -/

/-- The record wrapped by an attached node is the record attached. -/
theorem attachNode_getData (rs : List Record) (fuel : Nat) (visited : List String)
    (lvl : Nat) (r : Record) :
    (attachNode rs fuel visited lvl r).getData = r := by
  cases fuel <;> rfl

/-- The code of an attached record heads its pre-order traversal. -/
theorem attachNode_code_mem (rs : List Record) (fuel : Nat) (visited : List String)
    (lvl : Nat) (r : Record) :
    r.code ∈ preorderCodes (attachNode rs fuel visited lvl r) := by
  cases fuel <;> exact List.mem_cons_self _ _

/-- Membership in the pre-order traversal of a node list is membership in
the traversal of one of its nodes. -/
theorem mem_preorderCodesList {x : String} :
    ∀ ks : List HNode, x ∈ preorderCodesList ks ↔ ∃ k ∈ ks, x ∈ preorderCodes k := by
  intro ks
  induction ks with
  | nil => simp [preorderCodesList]
  | cons k t ih =>
    rw [show preorderCodesList (k :: t) = preorderCodes k ++ preorderCodesList t from rfl,
      List.mem_append, ih]
    constructor
    · rintro (h | ⟨k', hk', hx⟩)
      · exact ⟨k, List.mem_cons_self k t, h⟩
      · exact ⟨k', List.mem_cons_of_mem k hk', hx⟩
    · rintro ⟨k', hk', hx⟩
      rcases List.mem_cons.1 hk' with h | h
      · exact Or.inl (h ▸ hx)
      · exact Or.inr ⟨k', h, hx⟩

/-- Every attached node is well-formed: levels are recursion depths and
sibling lists are sorted by the child ordering. -/
theorem attachNode_wf (rs : List Record) :
    ∀ (fuel : Nat) (visited : List String) (lvl : Nat) (r : Record),
      WFNode lvl (attachNode rs fuel visited lvl r) := by
  intro fuel
  induction fuel with
  | zero =>
    intro visited lvl r
    exact WFNode.mk lvl r lvl [] rfl List.Pairwise.nil (by simp)
  | succ fuel ih =>
    intro visited lvl r
    show WFNode lvl (.node r lvl ((sortChildren ((childrenOf rs r.code).filter
      (fun c => !((r.code :: visited).contains c.code)))).map
        (fun c => attachNode rs fuel (r.code :: visited) (lvl + 1) c)))
    refine WFNode.mk lvl r lvl _ rfl ?_ ?_
    · rw [List.map_map]
      have hid : List.map (HNode.getData ∘ fun c =>
          attachNode rs fuel (r.code :: visited) (lvl + 1) c)
          (sortChildren ((childrenOf rs r.code).filter
            (fun c => !((r.code :: visited).contains c.code)))) =
          sortChildren ((childrenOf rs r.code).filter
            (fun c => !((r.code :: visited).contains c.code))) := by
        refine Eq.trans (List.map_congr_left ?_) (List.map_id _)
        intro c _
        exact attachNode_getData rs fuel (r.code :: visited) (lvl + 1) c
      rw [hid]
      exact List.sorted_insertionSort childLEP _
    · intro k hk
      obtain ⟨c, _, hck⟩ := List.mem_map.1 hk
      rw [← hck]
      exact ih (r.code :: visited) (lvl + 1) c

/-- Every attached node avoids repeating a code of its ancestor chain, the
chain guard skipping any child whose code already occurs there. -/
theorem attachNode_no_repeat (rs : List Record) :
    ∀ (fuel : Nat) (visited : List String) (lvl : Nat) (r : Record),
      r.code ∉ visited →
      NoAncestorRepeat visited (attachNode rs fuel visited lvl r) := by
  intro fuel
  induction fuel with
  | zero =>
    intro visited lvl r hnv
    exact NoAncestorRepeat.mk visited r lvl [] hnv (by simp)
  | succ fuel ih =>
    intro visited lvl r hnv
    show NoAncestorRepeat visited (.node r lvl ((sortChildren ((childrenOf rs r.code).filter
      (fun c => !((r.code :: visited).contains c.code)))).map
        (fun c => attachNode rs fuel (r.code :: visited) (lvl + 1) c)))
    refine NoAncestorRepeat.mk visited r lvl _ hnv ?_
    intro k hk
    obtain ⟨c, hc, hck⟩ := List.mem_map.1 hk
    rw [← hck]
    apply ih
    simp only [sortChildren] at hc
    rw [List.mem_insertionSort] at hc
    have hguard := (List.mem_filter.1 hc).2
    simpa using hguard

/-! C6: levels are recursion depths, children are sorted. -/

/-- C6: in every tree returned by the Hierarchy Builder, every node's
children are pairwise ordered by the sibling ordering (order ascending,
null orders last, ties broken by code ascending), every root carries level
0, and every node's hierarchy level is its recursion depth — each child at
its parent's level plus one. -/
theorem hierarchy_levels_and_sorting (rs : List Record) (bu st : String) :
    ∀ p ∈ get_hierarchical_structure rs bu st, WFNode 0 p.2 := by
  intro p hp
  simp only [get_hierarchical_structure] at hp
  obtain ⟨r, _, hpe⟩ := List.mem_map.1 hp
  rw [← hpe]
  exact attachNode_wf (filteredRecords rs bu st) _ [] 0 r

/-- C6 witness: the two-record DEFAULT/BS hierarchy of root BSA99999 and
child BSA10000 is well-formed at level 0. -/
theorem hierarchy_levels_and_sorting_witness :
    WFNode 0 ((get_hierarchical_structure [exA, exB] "DEFAULT" "BS").headD
        ("", HNode.node exA 0 [])).2 :=
  hierarchy_levels_and_sorting [exA, exB] "DEFAULT" "BS" _
    (headD_mem _ _ (by rfl))

/-! C8: the cycle guard. -/

/-- C8: the Hierarchy Builder is a total function — the embedding itself
terminates on every input — and on every input, cyclic parent references
included, no node of the output carries a code that already occurs in its
own ancestor chain: the recursion tracks the visited-code path and never
attaches such a node. -/
theorem hierarchy_cycle_guard (rs : List Record) (bu st : String) :
    ∀ p ∈ get_hierarchical_structure rs bu st, NoAncestorRepeat [] p.2 := by
  intro p hp
  simp only [get_hierarchical_structure] at hp
  obtain ⟨r, _, hpe⟩ := List.mem_map.1 hp
  rw [← hpe]
  exact attachNode_no_repeat (filteredRecords rs bu st) _ [] 0 r (by simp)

/-- C8 witness: on a record set containing a two-record parent cycle the
builder still returns, and its first tree repeats no ancestor code. -/
theorem hierarchy_cycle_guard_witness :
    NoAncestorRepeat [] ((get_hierarchical_structure [exA, exCycB, exCycC]
        "DEFAULT" "BS").headD ("", HNode.node exA 0 [])).2 :=
  hierarchy_cycle_guard [exA, exCycB, exCycC] "DEFAULT" "BS" _
    (headD_mem _ _ (by rfl))

/-- Filtering with a stronger predicate keeps at most as many elements. -/
theorem length_filter_mono {α : Type} (l : List α) (p q : α → Bool)
    (himp : ∀ x, q x = true → p x = true) :
    (l.filter q).length ≤ (l.filter p).length := by
  induction l with
  | nil => simp
  | cons b t ih =>
    rw [List.filter_cons, List.filter_cons]
    cases hq : q b
    · cases hp : p b
      · simpa using ih
      · simp only [hq, hp, Bool.false_eq_true, if_false, if_true, List.length_cons]
        omega
    · rw [himp b hq]
      simpa using ih

/-- Filtering a duplicate-free list with a strictly stronger predicate —
one that rejects a present element the weaker one keeps — drops its
length. -/
theorem length_filter_strict {α : Type} (p q : α → Bool)
    (himp : ∀ x, q x = true → p x = true) :
    ∀ l : List α, l.Nodup → ∀ a, a ∈ l → p a = true → q a = false →
      (l.filter q).length < (l.filter p).length := by
  intro l
  induction l with
  | nil => intro _ a ha; cases ha
  | cons b t ih =>
    intro hnd a ha hpa hqa
    rw [List.filter_cons, List.filter_cons]
    rcases List.mem_cons.1 ha with hab | hat
    · subst hab
      simp only [hpa, hqa, if_true, Bool.false_eq_true, if_false, List.length_cons]
      exact Nat.lt_succ_of_le (length_filter_mono t p q himp)
    · obtain ⟨_, hndt⟩ := List.nodup_cons.1 hnd
      have hlt := ih hndt a hat hpa hqa
      cases hq : q b
      · cases hp : p b
        · simpa using hlt
        · simp only [hq, hp, Bool.false_eq_true, if_false, if_true, List.length_cons]
          omega
      · rw [himp b hq]
        simpa using hlt

/-- Prepending a fresh code of the record set to the visited chain strictly
shrinks the set of distinct codes still available. -/
theorem remainingCodes_lt (rs : List Record) (visited : List String) (a : String)
    (ha : a ∈ rs.map (fun q => q.code)) (hnv : a ∉ visited) :
    remainingCodes rs (a :: visited) < remainingCodes rs visited := by
  unfold remainingCodes
  refine length_filter_strict _ _ ?_ _ (List.nodup_dedup _) a (List.mem_dedup.2 ha) ?_ ?_
  · intro x hx
    simp only [Bool.not_eq_true'] at hx ⊢
    simp only [List.contains_cons] at hx
    cases h : visited.contains x
    · rfl
    · rw [h] at hx; simp at hx
  · simpa using hnv
  · simp

/-- Closure of one attached subtree: whenever a code appears in its
pre-order traversal, any record declaring that code as parent either has
its own code in the traversal or carried a code already on the visited
chain when the subtree was attached. -/
theorem attachNode_closed (rs : List Record) :
    ∀ (fuel : Nat) (visited : List String) (lvl : Nat) (r : Record),
      r ∈ rs →
      remainingCodes rs (r.code :: visited) < fuel →
      ∀ q ∈ preorderCodes (attachNode rs fuel visited lvl r),
        ∀ c ∈ rs, c.parent_code = some q →
          c.code ∈ preorderCodes (attachNode rs fuel visited lvl r) ∨ c.code ∈ visited := by
  intro fuel
  induction fuel with
  | zero =>
    intro visited lvl r _ hfuel
    exact absurd hfuel (Nat.not_lt_zero _)
  | succ fuel ih =>
    intro visited lvl r hr hfuel q hq c hc hpar
    rw [show preorderCodes (attachNode rs (fuel + 1) visited lvl r) =
        r.code :: preorderCodesList ((sortChildren ((childrenOf rs r.code).filter
          (fun x => !((r.code :: visited).contains x.code)))).map
          (fun x => attachNode rs fuel (r.code :: visited) (lvl + 1) x)) from rfl] at hq ⊢
    rcases List.mem_cons.1 hq with hq1 | hq2
    · subst hq1
      by_cases hcv : c.code ∈ r.code :: visited
      · rcases List.mem_cons.1 hcv with h | h
        · left; rw [h]; exact List.mem_cons_self _ _
        · right; exact h
      · left
        have hchild : c ∈ childrenOf rs r.code :=
          List.mem_filter.2 ⟨hc, by simp [hpar]⟩
        have hcf : c ∈ (childrenOf rs r.code).filter
            (fun x => !((r.code :: visited).contains x.code)) :=
          List.mem_filter.2 ⟨hchild, by simpa using hcv⟩
        have hcs : c ∈ sortChildren ((childrenOf rs r.code).filter
            (fun x => !((r.code :: visited).contains x.code))) := by
          simp only [sortChildren]
          rw [List.mem_insertionSort]
          exact hcf
        apply List.mem_cons_of_mem
        rw [mem_preorderCodesList]
        exact ⟨attachNode rs fuel (r.code :: visited) (lvl + 1) c,
          List.mem_map_of_mem _ hcs,
          attachNode_code_mem rs fuel (r.code :: visited) (lvl + 1) c⟩
    · rw [mem_preorderCodesList] at hq2
      obtain ⟨k, hk, hqk⟩ := hq2
      obtain ⟨c0, hc0, hfc0⟩ := List.mem_map.1 hk
      rw [← hfc0] at hqk
      have hc0f : c0 ∈ (childrenOf rs r.code).filter
          (fun x => !((r.code :: visited).contains x.code)) := by
        simp only [sortChildren] at hc0
        rw [List.mem_insertionSort] at hc0
        exact hc0
      obtain ⟨hc0child, hc0guard⟩ := List.mem_filter.1 hc0f
      have hc0rs : c0 ∈ rs := (List.mem_filter.1 hc0child).1
      have hc0nv : c0.code ∉ r.code :: visited := by simpa using hc0guard
      have hfuel2 : remainingCodes rs (c0.code :: r.code :: visited) < fuel := by
        have hlt := remainingCodes_lt rs (r.code :: visited) c0.code
          (List.mem_map_of_mem _ hc0rs) hc0nv
        omega
      rcases ih (r.code :: visited) (lvl + 1) c0 hc0rs hfuel2 q hqk c hc hpar with h | h
      · left
        apply List.mem_cons_of_mem
        rw [mem_preorderCodesList]
        exact ⟨attachNode rs fuel (r.code :: visited) (lvl + 1) c0,
          List.mem_map_of_mem _ hc0, h⟩
      · rcases List.mem_cons.1 h with h2 | h2
        · left; rw [h2]; exact List.mem_cons_self _ _
        · right; exact h2

/-- Forest-level closure: any record of the filtered set whose parent code
appears in the forest traversal has its own code in the forest traversal. -/
theorem forest_closed (rs : List Record) (bu st : String)
    (q : String) (hq : q ∈ forestCodes rs bu st)
    (c : Record) (hc : c ∈ filteredRecords rs bu st) (hpar : c.parent_code = some q) :
    c.code ∈ forestCodes rs bu st := by
  unfold forestCodes at hq ⊢
  obtain ⟨p, hp, hqp⟩ := List.mem_flatMap.1 hq
  simp only [get_hierarchical_structure] at hp
  obtain ⟨r, hr, hrp⟩ := List.mem_map.1 hp
  obtain ⟨hrf, _⟩ := List.mem_filter.1 hr
  rw [← hrp] at hqp
  have hfuel : remainingCodes (filteredRecords rs bu st) (r.code :: []) <
      ((filteredRecords rs bu st).map (fun x => x.code)).dedup.length + 1 := by
    unfold remainingCodes
    have := List.length_filter_le (fun x => !(([r.code] : List String).contains x))
      (((filteredRecords rs bu st).map (fun x => x.code)).dedup)
    omega
  rcases attachNode_closed (filteredRecords rs bu st) _ [] 0 r hrf hfuel q hqp
      c hc hpar with h | h
  · refine List.mem_flatMap.2 ⟨(r.code, attachNode (filteredRecords rs bu st)
      (((filteredRecords rs bu st).map (fun x => x.code)).dedup.length + 1) [] 0 r),
      ?_, h⟩
    simp only [get_hierarchical_structure]
    exact List.mem_map_of_mem _ hr
  · cases h

/-- Every code in an attached subtree is reachable, provided the attached
record is in the set and its own code is reachable. -/
theorem attachNode_codes_reachable (rs : List Record) :
    ∀ (fuel : Nat) (visited : List String) (lvl : Nat) (r : Record),
      r ∈ rs → ReachableCode rs r.code →
      ∀ x ∈ preorderCodes (attachNode rs fuel visited lvl r), ReachableCode rs x := by
  intro fuel
  induction fuel with
  | zero =>
    intro visited lvl r _ hreach x hx
    have hx1 : x = r.code := by
      rcases List.mem_cons.1 hx with h | h
      · exact h
      · cases h
    rw [hx1]; exact hreach
  | succ fuel ih =>
    intro visited lvl r hr hreach x hx
    rw [show preorderCodes (attachNode rs (fuel + 1) visited lvl r) =
        r.code :: preorderCodesList ((sortChildren ((childrenOf rs r.code).filter
          (fun c => !((r.code :: visited).contains c.code)))).map
          (fun c => attachNode rs fuel (r.code :: visited) (lvl + 1) c)) from rfl] at hx
    rcases List.mem_cons.1 hx with h | h
    · rw [h]; exact hreach
    · rw [mem_preorderCodesList] at h
      obtain ⟨k, hk, hxk⟩ := h
      obtain ⟨c0, hc0, hfc0⟩ := List.mem_map.1 hk
      rw [← hfc0] at hxk
      have hc0f : c0 ∈ (childrenOf rs r.code).filter
          (fun c => !((r.code :: visited).contains c.code)) := by
        simp only [sortChildren] at hc0
        rw [List.mem_insertionSort] at hc0
        exact hc0
      have hc0child := (List.mem_filter.1 hc0f).1
      obtain ⟨hc0rs, hc0beq⟩ := List.mem_filter.1 hc0child
      have hc0par : c0.parent_code = some r.code := by simpa using hc0beq
      exact ih (r.code :: visited) (lvl + 1) c0 hc0rs
        (ReachableCode.step r.code hreach c0 hc0rs hc0par) x hxk

/-- Every code in the forest traversal is reachable within the filtered
record set. -/
theorem forest_codes_reachable (rs : List Record) (bu st : String) :
    ∀ x ∈ forestCodes rs bu st, ReachableCode (filteredRecords rs bu st) x := by
  intro x hx
  unfold forestCodes at hx
  obtain ⟨p, hp, hxp⟩ := List.mem_flatMap.1 hx
  simp only [get_hierarchical_structure] at hp
  obtain ⟨r, hr, hrp⟩ := List.mem_map.1 hp
  obtain ⟨hrf, hrroot⟩ := List.mem_filter.1 hr
  rw [← hrp] at hxp
  exact attachNode_codes_reachable (filteredRecords rs bu st) _ [] 0 r hrf
    (ReachableCode.root r hrf hrroot) x hxp

/-- Every reachable code of the filtered record set appears in the forest
traversal. -/
theorem reachable_in_forest (rs : List Record) (bu st : String) :
    ∀ x, ReachableCode (filteredRecords rs bu st) x → x ∈ forestCodes rs bu st := by
  intro x h
  induction h with
  | root r hr hroot =>
    unfold forestCodes
    refine List.mem_flatMap.2 ⟨(r.code, attachNode (filteredRecords rs bu st)
      (((filteredRecords rs bu st).map (fun q => q.code)).dedup.length + 1) [] 0 r),
      ?_, ?_⟩
    · simp only [get_hierarchical_structure]
      exact List.mem_map_of_mem _ (List.mem_filter.2 ⟨hr, hroot⟩)
    · exact attachNode_code_mem (filteredRecords rs bu st) _ [] 0 r
  | step p hp r hr hpar ih =>
    exact forest_closed rs bu st p ih r hr hpar

/-! C7: the tree round-trip. -/

/-- C7 counterexample: with root BSA99999, orphan ORP10000 (parent
MISSING99 resolves nowhere) and its child ORP20000 (whose parent resolves
to the orphan), the pre-order code set is only the root, while the claim's
"filtered minus direct orphans" set also contains ORP20000 — the two code
sets differ. -/
theorem tree_round_trip_counterexample :
    ¬ (∀ x, x ∈ forestCodes [exA, exOrphan, exOrphanChild] "DEFAULT" "BS" ↔
        x ∈ claimRoundTripCodes [exA, exOrphan, exOrphanChild] "DEFAULT" "BS") := by
  intro h
  have h1 := (h "ORP20000").2 (by decide)
  exact absurd h1 (by decide)

/-- C7 amended: a code appears in the pre-order traversal of the Hierarchy
Builder's output exactly when it is reachable in the filtered record set —
some record carries it as a root, or a chain of resolving parent links
connects it to a root.  Records not reachable from any root (transitive
orphans and cycle members), not only the directly orphaned ones, are the
records excluded from the traversal. -/
theorem tree_round_trip_amended (rs : List Record) (bu st : String) (x : String) :
    x ∈ forestCodes rs bu st ↔ ReachableCode (filteredRecords rs bu st) x :=
  ⟨fun h => forest_codes_reachable rs bu st x h,
   fun h => reachable_in_forest rs bu st x h⟩
